import Mathlib

/-!
Verification of the Kraków real-estate transaction pipeline
(`download_data.py`, `create_map.py`).

The pipeline is: paginated fetch from a feature service
(`download_market_data`), two-stage cleaning (`clean_data`),
aggregation by (unit, year) (`aggregate_for_map`), and rendering of the
aggregated groups into the map document (`create_map_html`).

Numbers that are Python floats (prices, areas) are modelled as rationals
(`ℚ`); transaction counts are naturals; a GeoJSON feature's optional
properties are `Option` fields, with the source's `dict.get` defaults
made explicit via `Option.getD`.  Python dicts keyed by `(unit, year)`
are modelled as association lists in key-insertion order, which is the
iteration order of a Python dict.
-/

namespace MsipPipeline

/-- One GeoJSON feature as consumed by the pipeline: the `properties`
fields the scripts read, plus the opaque geometry payload (never parsed,
only passed through and tested for nullness). -/
structure Feature where
  nazwa_jedn : Option String
  data_zaw_year : Option Int
  sr_cena_m2 : Option ℚ
  lkl_count : Option Nat
  st_area_shape : Option ℚ
  geometry : Option String
deriving DecidableEq, Repr

/-- Grouping key: `(props.get("nazwa_jedn", "Nieznana"), props.get("data_zaw_year", 2023))`. -/
abbrev UKey := String × Int

/-- The key of a feature, with the source's defaults for absent fields. -/
def keyOf (f : Feature) : UKey :=
  (f.nazwa_jedn.getD "Nieznana", f.data_zaw_year.getD 2023)

/-- Source `props.get("sr_cena_m2", 0)`: the price value, defaulting to 0 when absent. -/
def priceD (f : Feature) : ℚ := f.sr_cena_m2.getD 0

/-- Source `props.get("lkl_count", 0)`: the transaction-count contribution. -/
def countD (f : Feature) : Nat := f.lkl_count.getD 0

/-- Threshold `MIN_PRICE_M2 = 5000`. -/
def MIN_PRICE_M2 : ℚ := 5000

/-- Threshold `MIN_TRANSACTIONS_PER_YEAR = 5`. -/
def MIN_TRANSACTIONS_PER_YEAR : Nat := 5

/-- Step 1 of `clean_data`: keep a feature iff `price >= MIN_PRICE_M2`,
with the price floor kept as a parameter. -/
def stage1 (pfloor : ℚ) (fs : List Feature) : List Feature :=
  fs.filter (fun f => decide (pfloor ≤ priceD f))

/-- Counter `removed_price` of `clean_data` (features failing
the price check in step 1). -/
def removed_price (pfloor : ℚ) (fs : List Feature) : Nat :=
  fs.countP (fun f => !decide (pfloor ≤ priceD f))

/-- The keys of `unit_year_stats` in dict insertion order, i.e. first
occurrence order of each feature's key. -/
def keysOf : List Feature → List UKey
  | [] => []
  | f :: fs => keyOf f :: (keysOf fs).filter (fun k => decide (k ≠ keyOf f))

/-- Entry `unit_year_stats[key]["features"]`: the features of one group, in
input order. -/
def groupFeatures (fs : List Feature) (k : UKey) : List Feature :=
  fs.filter (fun f => decide (keyOf f = k))

/-- Entry `unit_year_stats[key]["transactions"]`: the group's summed
transaction-count field. -/
def groupTrans (fs : List Feature) (k : UKey) : Nat :=
  ((groupFeatures fs k).map countD).sum

/-- Step 2 of `clean_data`: iterate the groups in dict order and keep, in
full, exactly the groups whose summed transaction count meets the
threshold. -/
def stage2 (minT : Nat) (fs : List Feature) : List Feature :=
  ((keysOf fs).filter (fun k => decide (minT ≤ groupTrans fs k))).flatMap (groupFeatures fs)

/-- Counter `removed_low_count` of `clean_data` (sizes of the
dropped groups). -/
def removed_low_count (minT : Nat) (fs : List Feature) : Nat :=
  (((keysOf fs).filter (fun k => !decide (minT ≤ groupTrans fs k))).map
    (fun k => (groupFeatures fs k).length)).sum

/-- Function `clean_data`: price-floor filter then group-threshold filter, with
both thresholds as parameters (the script instantiates them with
`MIN_PRICE_M2` and `MIN_TRANSACTIONS_PER_YEAR`). -/
def clean_data (pfloor : ℚ) (minT : Nat) (fs : List Feature) : List Feature :=
  stage2 minT (stage1 pfloor fs)

/-- One value of the `units` dict built by `aggregate_for_map`. -/
structure UnitAgg where
  nazwa : String
  rok : Int
  rynek : String
  transakcje : Nat
  ceny_m2 : List ℚ
  powierzchnia_m2 : ℚ
  geometry : Option String
deriving DecidableEq, Repr

/-- Test `if props.get("sr_cena_m2"):` — the price when it is present and
truthy (non-zero), else `none`. -/
def priceTruthy (f : Feature) : Option ℚ :=
  match f.sr_cena_m2 with
  | none => none
  | some p => if p = 0 then none else some p

/-- The group value created on first encounter of a key in
`aggregate_for_map` (before the per-feature update lines run). -/
def initUnit (market : String) (f : Feature) : UnitAgg :=
  { nazwa := f.nazwa_jedn.getD "Nieznana"
    rok := f.data_zaw_year.getD 2023
    rynek := market
    transakcje := 0
    ceny_m2 := []
    powierzchnia_m2 := f.st_area_shape.getD 0
    geometry := f.geometry }

/-- The per-feature update lines of `aggregate_for_map`: add `lkl_count`
to the running sum and append the price when present and non-zero. -/
def addFeature (u : UnitAgg) (f : Feature) : UnitAgg :=
  { u with
    transakcje := u.transakcje + countD f
    ceny_m2 :=
      match priceTruthy f with
      | some p => u.ceny_m2 ++ [p]
      | none => u.ceny_m2 }

/-- Lookup in the association-list model of the `units` dict. -/
def lookupKey (k : UKey) : List (UKey × UnitAgg) → Option UnitAgg
  | [] => none
  | (k', u) :: rest => if k' = k then some u else lookupKey k rest

/-- In-place update of a key's value in the association-list model. -/
def updateKey (k : UKey) (g : UnitAgg → UnitAgg) :
    List (UKey × UnitAgg) → List (UKey × UnitAgg)
  | [] => []
  | (k', u) :: rest =>
      if k' = k then (k', g u) :: rest else (k', u) :: updateKey k g rest

/-- One loop iteration of `aggregate_for_map`: create the group if the
key is new (then run the update lines), otherwise update it in place. -/
def aggStep (market : String) (us : List (UKey × UnitAgg)) (f : Feature) :
    List (UKey × UnitAgg) :=
  match lookupKey (keyOf f) us with
  | some _ => updateKey (keyOf f) (fun u => addFeature u f) us
  | none => us ++ [(keyOf f, addFeature (initUnit market f) f)]

/-- Function `aggregate_for_map`: fold the features into the `units` dict. -/
def aggregate_for_map (market : String) (fs : List Feature) :
    List (UKey × UnitAgg) :=
  fs.foldl (aggStep market) []

/-- Value `avg_price` in `create_map_html`:
`sum(unit["ceny_m2"]) / len(unit["ceny_m2"]) if unit["ceny_m2"] else 0`. -/
def avg_price (u : UnitAgg) : ℚ :=
  if u.ceny_m2 = [] then 0 else u.ceny_m2.sum / (u.ceny_m2.length : ℚ)

/-- Python's `round(x)` to an integer: round half to even. -/
def pyRound (q : ℚ) : ℤ :=
  let n := ⌊q⌋
  let r := q - (n : ℚ)
  if r < 1 / 2 then n
  else if 1 / 2 < r then n + 1
  else if Even n then n else n + 1

/-- One feature emitted into the map document's embedded payload. -/
structure MapFeature where
  geometry : Option String
  nazwa : String
  rok : Int
  rynek : String
  transakcje : Nat
  srednia_cena_m2 : ℚ
  powierzchnia_ha : ℚ
deriving DecidableEq, Repr

/-- The feature `create_map_html` emits for one aggregated group:
`srednia_cena_m2 = round(avg_price, 0)` and
`powierzchnia_ha = round(powierzchnia_m2 / 10000, 1)`. -/
def emitUnit (market : String) (u : UnitAgg) : MapFeature :=
  { geometry := u.geometry
    nazwa := u.nazwa
    rok := u.rok
    rynek := market
    transakcje := u.transakcje
    srednia_cena_m2 := (pyRound (avg_price u) : ℚ)
    powierzchnia_ha := (pyRound (u.powierzchnia_m2 / 10000 * 10) : ℚ) / 10 }

/-- The inner loop of `create_map_html` over one market's `units` dict:
emit a feature per group, skipping groups whose geometry is not truthy. -/
def renderMarket (market : String) (d : List (UKey × UnitAgg)) :
    List MapFeature :=
  d.filterMap (fun kv => if kv.2.geometry.isSome then some (emitUnit market kv.2) else none)

/-- List `all_features` in `create_map_html`: the primary market's groups then
the secondary market's groups. -/
def create_map_features (pierwotny_data wtorny_data : List (UKey × UnitAgg)) :
    List MapFeature :=
  renderMarket "pierwotny" pierwotny_data ++ renderMarket "wtorny" wtorny_data

/-- The result of the pagination loop in `download_market_data`: the
fetched pages (in order) and the offsets at which page requests were
issued. -/
structure FetchResult where
  pages : List (List Feature)
  offsets : List Nat
deriving DecidableEq, Repr

/-- The `while offset < total_count` pagination loop.  `pagesFn offset`
is the remote service's answer at an offset: `none` models a transport
error (the `except` branch: stop, drop nothing already gathered), a
`some` page is appended and, when empty, stops the loop.  The loop is
written with fuel; `download_market_data` supplies `total` fuel, which
is enough for any positive batch size. -/
def fetchLoop (pagesFn : Nat → Option (List Feature)) (total batch : Nat) :
    Nat → Nat → FetchResult
  | _, 0 => ⟨[], []⟩
  | offset, fuel + 1 =>
    if offset < total then
      match pagesFn offset with
      | none => ⟨[], [offset]⟩
      | some pg =>
        if pg.length = 0 then ⟨[pg], [offset]⟩
        else
          let r := fetchLoop pagesFn total batch (offset + batch) fuel
          ⟨pg :: r.pages, offset :: r.offsets⟩
    else ⟨[], []⟩

/-- Function `merge_geojson`: concatenate the pages' feature lists, in page order. -/
def merge_geojson (pages : List (List Feature)) : List Feature :=
  pages.flatten

/-- Function `download_market_data`, given the count-only query's answer `total`:
returns `None` when the count is zero, otherwise the merged pages,
paired with the list of issued page-request offsets (batch size 2000,
as in the source). -/
def download_market_data (pagesFn : Nat → Option (List Feature)) (total : Nat) :
    Option (List Feature) × List Nat :=
  if total = 0 then (none, [])
  else
    let r := fetchLoop pagesFn total 2000 0 total
    (some (merge_geojson r.pages), r.offsets)

/-- Ceiling division, used to state how many pages a full fetch issues. -/
def cdiv (a b : Nat) : Nat := (a + b - 1) / b

/-- Arithmetic mean as the spec words it: "the arithmetic mean of its
collected per-record price values (zero if the list is empty)". -/
def specMean (l : List ℚ) : ℚ :=
  if l = [] then 0 else l.sum / (l.length : ℚ)

/-- The prices a group collects from a feature list: for each record of
the group, in order, its price when present and non-zero. -/
def collectedPrices (fs : List Feature) (k : UKey) : List ℚ :=
  (groupFeatures fs k).filterMap priceTruthy

/-- Spec §8 example record 1: unit "A", year 2024, price 8000, count 3. -/
def exA : Feature := ⟨some "A", some 2024, some 8000, some 3, some 100000, some "g"⟩

/-- Spec §8 example record 2: unit "A", year 2024, price 12000, count 4. -/
def exB : Feature := ⟨some "A", some 2024, some 12000, some 4, some 100000, some "g"⟩

/-- Spec §8 example record 3: unit "A", year 2024, price 3000, count 10. -/
def exC : Feature := ⟨some "A", some 2024, some 3000, some 10, some 100000, some "g"⟩

/-- A one-record page used to exercise the fetcher. -/
def pageOne : List Feature := [exA]

/-- Folding a whole group of features into one `units` entry with the
per-feature update lines; used to state what `aggregate_for_map` holds
at a key. -/
def addGroup (u : UnitAgg) (g : List Feature) : UnitAgg :=
  g.foldl addFeature u

/-- The group `aggregate_for_map "pierwotny" [exA, exB]` builds. -/
def wUnitA : UnitAgg :=
  ⟨"A", 2024, "pierwotny", 7, [8000, 12000], 100000, some "g"⟩

/-- The group `aggregate_for_map "pierwotny" [exB, exA]` builds. -/
def wUnitArev : UnitAgg :=
  ⟨"A", 2024, "pierwotny", 7, [12000, 8000], 100000, some "g"⟩

/-- A group whose retained geometry is null, used to exercise the
renderer's geometry filter. -/
def wUnitNoGeom : UnitAgg :=
  ⟨"B", 2024, "wtorny", 3, [9000], 50000, none⟩

section Lemmas

theorem mem_stage1 {pfloor : ℚ} {fs : List Feature} {f : Feature} :
    f ∈ stage1 pfloor fs ↔ f ∈ fs ∧ pfloor ≤ priceD f := by
  simp [stage1, List.mem_filter]

theorem mem_groupFeatures {fs : List Feature} {k : UKey} {f : Feature} :
    f ∈ groupFeatures fs k ↔ f ∈ fs ∧ keyOf f = k := by
  simp [groupFeatures, List.mem_filter]

theorem mem_keysOf {fs : List Feature} {k : UKey} :
    k ∈ keysOf fs ↔ ∃ f ∈ fs, keyOf f = k := by
  induction fs with
  | nil => simp [keysOf]
  | cons f fs ih =>
    simp only [keysOf, List.mem_cons, List.mem_filter, ih, decide_eq_true_eq]
    constructor
    · rintro (rfl | ⟨⟨g, hg, rfl⟩, _⟩)
      · exact ⟨f, Or.inl rfl, rfl⟩
      · exact ⟨g, Or.inr hg, rfl⟩
    · rintro ⟨g, hg | hg, rfl⟩
      · exact Or.inl (by rw [hg])
      · by_cases hk : keyOf g = keyOf f
        · exact Or.inl hk
        · exact Or.inr ⟨⟨g, hg, rfl⟩, hk⟩

theorem nodup_keysOf (fs : List Feature) : (keysOf fs).Nodup := by
  induction fs with
  | nil => simp [keysOf]
  | cons f fs ih =>
    refine List.Nodup.cons ?_ (List.Nodup.filter _ ih)
    intro h
    rcases List.mem_filter.mp h with ⟨-, hne⟩
    simp at hne

theorem mem_stage2 {minT : Nat} {fs : List Feature} {f : Feature} :
    f ∈ stage2 minT fs ↔ f ∈ fs ∧ minT ≤ groupTrans fs (keyOf f) := by
  simp only [stage2, List.mem_flatMap, List.mem_filter, decide_eq_true_eq]
  constructor
  · rintro ⟨k, ⟨-, hkeep⟩, hf⟩
    rcases mem_groupFeatures.mp hf with ⟨hmem, rfl⟩
    exact ⟨hmem, hkeep⟩
  · rintro ⟨hmem, hkeep⟩
    exact ⟨keyOf f, ⟨mem_keysOf.mpr ⟨f, hmem, rfl⟩, hkeep⟩,
      mem_groupFeatures.mpr ⟨hmem, rfl⟩⟩

theorem countP_or_disjoint {α : Type} (p q : α → Bool) :
    ∀ l : List α, (∀ x ∈ l, ¬(p x = true ∧ q x = true)) →
      l.countP (fun x => p x || q x) = l.countP p + l.countP q := by
  intro l
  induction l with
  | nil => simp
  | cons a l ih =>
    intro hdisj
    have ha := hdisj a (List.mem_cons_self a l)
    have hl : ∀ x ∈ l, ¬(p x = true ∧ q x = true) := fun x hx =>
      hdisj x (List.mem_cons_of_mem a hx)
    simp only [List.countP_cons, ih hl, Bool.or_eq_true]
    cases hp : p a <;> cases hq : q a <;> simp [hp, hq] at ha ⊢ <;> omega

theorem sum_countP_keys (l : List Feature) :
    ∀ ks : List UKey, ks.Nodup →
      (ks.map (fun k => l.countP (fun f => decide (keyOf f = k)))).sum
        = l.countP (fun f => decide (keyOf f ∈ ks)) := by
  intro ks
  induction ks with
  | nil => simp
  | cons k ks ih =>
    intro hnd
    rcases List.nodup_cons.mp hnd with ⟨hk, hnd'⟩
    have hcong : l.countP (fun f => decide (keyOf f ∈ k :: ks))
        = l.countP (fun f => decide (keyOf f = k) || decide (keyOf f ∈ ks)) := by
      apply List.countP_congr
      intro f _
      simp [List.mem_cons]
    rw [List.map_cons, List.sum_cons, ih hnd', hcong,
      countP_or_disjoint]
    intro f _
    simp only [decide_eq_true_eq, not_and]
    intro hf hmem
    exact hk (hf ▸ hmem)

theorem length_groupFeatures (fs : List Feature) (k : UKey) :
    (groupFeatures fs k).length = fs.countP (fun f => decide (keyOf f = k)) := by
  rw [groupFeatures, List.countP_eq_length_filter]

theorem sum_group_lengths (fs : List Feature) :
    ((keysOf fs).map (fun k => (groupFeatures fs k).length)).sum = fs.length := by
  have h1 : ((keysOf fs).map (fun k => (groupFeatures fs k).length)).sum
      = ((keysOf fs).map (fun k =>
          fs.countP (fun f => decide (keyOf f = k)))).sum := by
    congr 1
    exact List.map_congr_left fun k _ => length_groupFeatures fs k
  rw [h1, sum_countP_keys fs (keysOf fs) (nodup_keysOf fs)]
  rw [List.countP_eq_length]
  intro f hf
  simp only [decide_eq_true_eq]
  exact mem_keysOf.mpr ⟨f, hf, rfl⟩

theorem sum_map_filter_split {α : Type} (g : α → Nat) (p : α → Bool) :
    ∀ l : List α,
      ((l.filter p).map g).sum + ((l.filter (fun x => !p x)).map g).sum
        = (l.map g).sum := by
  intro l
  induction l with
  | nil => simp
  | cons a l ih =>
    cases hp : p a <;> simp [List.filter_cons, hp, ← ih] <;> omega

theorem keysOf_group_cons :
    ∀ (g l : List Feature) (k : UKey), (∀ f ∈ g, keyOf f = k) → g ≠ [] →
      keysOf (g ++ l) = k :: (keysOf l).filter (fun k2 => decide (k2 ≠ k)) := by
  intro g
  induction g with
  | nil => intro l k _ hne; exact absurd rfl hne
  | cons f g ih =>
    intro l k hall _
    have hkf : keyOf f = k := hall f (List.mem_cons_self f g)
    by_cases hg : g = []
    · subst hg
      simp [keysOf, hkf]
    · have hall' : ∀ f ∈ g, keyOf f = k := fun x hx =>
        hall x (List.mem_cons_of_mem f hx)
      rw [List.cons_append, keysOf, ih l k hall' hg, hkf]
      rw [List.filter_cons]
      simp

theorem keysOf_flatMap_groups (s : List Feature) :
    ∀ ks : List UKey, ks.Nodup → (∀ k ∈ ks, groupFeatures s k ≠ []) →
      keysOf (ks.flatMap (groupFeatures s)) = ks := by
  intro ks
  induction ks with
  | nil => intro _ _; simp [keysOf]
  | cons k ks ih =>
    intro hnd hne
    rcases List.nodup_cons.mp hnd with ⟨hk, hnd'⟩
    rw [List.flatMap_cons,
      keysOf_group_cons (groupFeatures s k) _ k
        (fun f hf => (mem_groupFeatures.mp hf).2)
        (hne k (List.mem_cons_self k ks)),
      ih hnd' (fun x hx => hne x (List.mem_cons_of_mem k hx))]
    congr 1
    apply List.filter_eq_self.mpr
    intro x hx
    simp only [decide_eq_true_eq]
    intro hxk
    exact hk (hxk ▸ hx)

theorem flatMap_single_group (s : List Feature) (k : UKey) :
    ∀ ks : List UKey, ks.Nodup → k ∈ ks →
      (ks.flatMap (fun k2 =>
        if k2 = k then groupFeatures s k else [])) = groupFeatures s k := by
  intro ks
  induction ks with
  | nil => intro _ h; cases h
  | cons k1 ks ih =>
    intro hnd hmem
    rcases List.nodup_cons.mp hnd with ⟨hk1, hnd'⟩
    rw [List.flatMap_cons]
    by_cases hkk : k1 = k
    · subst hkk
      have hrest : (ks.flatMap (fun k2 =>
          if k2 = k1 then groupFeatures s k1 else [])) = [] := by
        apply List.flatMap_eq_nil_iff.mpr
        intro x hx
        have : x ≠ k1 := fun h => hk1 (h ▸ hx)
        simp [this]
      simp [hrest]
    · have hmem' : k ∈ ks := by
        rcases List.mem_cons.mp hmem with h | h
        · exact absurd h.symm hkk
        · exact h
      simp [hkk, ih hnd' hmem']

theorem groupFeatures_flatMap (s : List Feature) (ks : List UKey)
    (hnd : ks.Nodup) (k : UKey) (hmem : k ∈ ks) :
    groupFeatures (ks.flatMap (groupFeatures s)) k = groupFeatures s k := by
  rw [groupFeatures, List.filter_flatMap]
  have hpt : ∀ k2 ∈ ks,
      (groupFeatures s k2).filter (fun f => decide (keyOf f = k))
        = if k2 = k then groupFeatures s k else [] := by
    intro k2 _
    by_cases hkk : k2 = k
    · subst hkk
      simp only [if_pos rfl]
      apply List.filter_eq_self.mpr
      intro f hf
      simp [(mem_groupFeatures.mp hf).2]
    · rw [if_neg hkk]
      apply List.filter_eq_nil_iff.mpr
      intro f hf
      simp [(mem_groupFeatures.mp hf).2, hkk]
  rw [List.flatMap_congr hpt]
  exact flatMap_single_group s k ks hnd hmem

theorem lookupKey_updateKey (k k' : UKey) (g : UnitAgg → UnitAgg) :
    ∀ us : List (UKey × UnitAgg),
      lookupKey k (updateKey k' g us)
        = if k' = k then (lookupKey k us).map g else lookupKey k us := by
  intro us
  induction us with
  | nil => simp [lookupKey, updateKey]
  | cons e rest ih =>
    obtain ⟨k2, u⟩ := e
    rw [updateKey]
    by_cases h1 : k2 = k'
    · rw [if_pos h1]
      by_cases h2 : k2 = k
      · have hk : k' = k := h1 ▸ h2
        simp [lookupKey, h2, hk]
      · have hk : ¬k' = k := fun he => h2 (h1.trans he)
        simp [lookupKey, h2, hk]
    · rw [if_neg h1]
      by_cases h2 : k2 = k
      · have hk : ¬k' = k := fun he => h1 (h2.trans he.symm)
        simp [lookupKey, h2, hk]
      · simp [lookupKey, h2, ih]

theorem lookupKey_append (k : UKey) :
    ∀ us vs : List (UKey × UnitAgg),
      lookupKey k (us ++ vs)
        = match lookupKey k us with
          | some u => some u
          | none => lookupKey k vs := by
  intro us vs
  induction us with
  | nil => simp [lookupKey]
  | cons e rest ih =>
    obtain ⟨k2, u⟩ := e
    by_cases h2 : k2 = k <;> simp [lookupKey, h2, ih]

theorem agg_lookup (m : String) :
    ∀ (l : List Feature) (acc : List (UKey × UnitAgg)) (k : UKey),
      lookupKey k (l.foldl (aggStep m) acc)
        = match lookupKey k acc, groupFeatures l k with
          | some u, g => some (addGroup u g)
          | none, [] => none
          | none, f :: g => some (addGroup (addFeature (initUnit m f) f) g) := by
  intro l
  induction l with
  | nil =>
    intro acc k
    cases h : lookupKey k acc <;> simp [groupFeatures, addGroup, h]
  | cons f0 l ih =>
    intro acc k
    rw [List.foldl_cons, ih (aggStep m acc f0) k]
    by_cases hk0 : keyOf f0 = k
    · have hgf : groupFeatures (f0 :: l) k = f0 :: groupFeatures l k := by
        simp [groupFeatures, List.filter_cons, hk0]
      cases hacc : lookupKey k acc with
      | some u =>
        have hstep : lookupKey k (aggStep m acc f0) = some (addFeature u f0) := by
          rw [aggStep, hk0, hacc, lookupKey_updateKey, if_pos rfl, hacc,
            Option.map_some']
        rw [hstep, hgf]
        rfl
      | none =>
        have hstep : lookupKey k (aggStep m acc f0)
            = some (addFeature (initUnit m f0) f0) := by
          rw [aggStep, hk0, hacc, lookupKey_append, hacc]
          simp [lookupKey]
        rw [hstep, hgf]
    · have hgf : groupFeatures (f0 :: l) k = groupFeatures l k := by
        simp [groupFeatures, List.filter_cons, hk0]
      have hstep : lookupKey k (aggStep m acc f0) = lookupKey k acc := by
        rw [aggStep]
        cases hacc0 : lookupKey (keyOf f0) acc with
        | some u0 => rw [lookupKey_updateKey, if_neg hk0]
        | none =>
          rw [lookupKey_append]
          cases hacc : lookupKey k acc <;> simp [lookupKey, hk0, hacc]
      rw [hstep, hgf]

theorem addGroup_transakcje :
    ∀ (g : List Feature) (u : UnitAgg),
      (addGroup u g).transakcje = u.transakcje + (g.map countD).sum := by
  intro g
  induction g with
  | nil => intro u; simp [addGroup]
  | cons f g ih =>
    intro u
    have : addGroup u (f :: g) = addGroup (addFeature u f) g := rfl
    rw [this, ih, addFeature]
    simp
    omega

theorem addGroup_ceny :
    ∀ (g : List Feature) (u : UnitAgg),
      (addGroup u g).ceny_m2 = u.ceny_m2 ++ g.filterMap priceTruthy := by
  intro g
  induction g with
  | nil => intro u; simp [addGroup]
  | cons f g ih =>
    intro u
    have h1 : addGroup u (f :: g) = addGroup (addFeature u f) g := rfl
    rw [h1, ih, List.filterMap_cons]
    cases hp : priceTruthy f <;> simp [addFeature, hp]

theorem addGroup_fields :
    ∀ (g : List Feature) (u : UnitAgg),
      (addGroup u g).nazwa = u.nazwa ∧ (addGroup u g).rok = u.rok ∧
      (addGroup u g).rynek = u.rynek ∧
      (addGroup u g).powierzchnia_m2 = u.powierzchnia_m2 ∧
      (addGroup u g).geometry = u.geometry := by
  intro g
  induction g with
  | nil => intro u; simp [addGroup]
  | cons f g ih =>
    intro u
    have h1 : addGroup u (f :: g) = addGroup (addFeature u f) g := rfl
    rw [h1]
    rcases ih (addFeature u f) with ⟨h2, h3, h4, h5, h6⟩
    rw [h2, h3, h4, h5, h6]
    simp [addFeature]

theorem agg_lookup_isSome (m : String) (fs : List Feature) (k : UKey) :
    (lookupKey k (aggregate_for_map m fs)).isSome ↔ ∃ f ∈ fs, keyOf f = k := by
  rw [aggregate_for_map, agg_lookup m fs [] k]
  have hnil : lookupKey k ([] : List (UKey × UnitAgg)) = none := rfl
  rw [hnil]
  cases hg : groupFeatures fs k with
  | nil =>
    simp only [Option.isSome_none, Bool.false_eq_true, false_iff]
    rintro ⟨f, hf, hkey⟩
    have : f ∈ groupFeatures fs k := mem_groupFeatures.mpr ⟨hf, hkey⟩
    rw [hg] at this
    cases this
  | cons f g =>
    simp only [Option.isSome_some, true_iff]
    have : f ∈ groupFeatures fs k := by rw [hg]; exact List.mem_cons_self f g
    rcases mem_groupFeatures.mp this with ⟨hf, hkey⟩
    exact ⟨f, hf, hkey⟩

theorem agg_lookup_some {m : String} {fs : List Feature} {k : UKey} {u : UnitAgg}
    (h : lookupKey k (aggregate_for_map m fs) = some u) :
    u.transakcje = groupTrans fs k ∧ u.ceny_m2 = collectedPrices fs k ∧
    ∀ f0 g, groupFeatures fs k = f0 :: g →
      u.nazwa = f0.nazwa_jedn.getD "Nieznana" ∧
      u.rok = f0.data_zaw_year.getD 2023 ∧ u.rynek = m ∧
      u.powierzchnia_m2 = f0.st_area_shape.getD 0 ∧
      u.geometry = f0.geometry := by
  rw [aggregate_for_map, agg_lookup m fs [] k] at h
  have hnil : lookupKey k ([] : List (UKey × UnitAgg)) = none := rfl
  rw [hnil] at h
  cases hg : groupFeatures fs k with
  | nil => rw [hg] at h; cases h
  | cons f0 g =>
    rw [hg] at h
    have hu : u = addGroup (addFeature (initUnit m f0) f0) g :=
      (Option.some.injEq _ _ ▸ h).symm
    subst hu
    refine ⟨?_, ?_, ?_⟩
    · rw [addGroup_transakcje, groupTrans, hg, addFeature, initUnit]
      simp
    · rw [addGroup_ceny, collectedPrices, hg, List.filterMap_cons, addFeature,
        initUnit]
      cases hp : priceTruthy f0 <;> simp [hp]
    · intro f1 g1 hg1
      injection hg1 with h7 h8
      subst h7
      subst h8
      rcases addGroup_fields g (addFeature (initUnit m f0) f0) with
        ⟨h2, h3, h4, h5, h6⟩
      rw [h2, h3, h4, h5, h6]
      simp [addFeature, initUnit]

theorem filterMap_if_eq {α β : Type} (p : α → Bool) (e : α → β) :
    ∀ l : List α,
      (l.filterMap (fun x => if p x then some (e x) else none))
        = (l.filter p).map e := by
  intro l
  induction l with
  | nil => rfl
  | cons x l ih =>
    cases hp : p x <;> simp [List.filterMap_cons, List.filter_cons, hp, ih]

theorem renderMarket_geometry {m : String} {d : List (UKey × UnitAgg)}
    {g : MapFeature} (hg : g ∈ renderMarket m d) : g.geometry ≠ none := by
  rcases List.mem_filterMap.mp hg with ⟨kv, -, hkv⟩
  by_cases hs : kv.2.geometry.isSome
  · rw [if_pos hs] at hkv
    injection hkv with he
    rw [← he]
    exact Option.ne_none_iff_isSome.mpr hs
  · rw [if_neg hs] at hkv
    cases hkv

theorem cdiv_pos (a b : Nat) (ha : 0 < a) (hb : 0 < b) :
    cdiv a b = (a - 1) / b + 1 := by
  rw [cdiv]
  have h1 : a + b - 1 = (a - 1) + b := by omega
  rw [h1, Nat.add_div_right _ hb]

theorem cdiv_zero (b : Nat) (hb : 0 < b) : cdiv 0 b = 0 := by
  rw [cdiv]
  exact Nat.div_eq_of_lt (by omega)

theorem cdiv_step (a b : Nat) (ha : 0 < a) (hb : 0 < b) :
    cdiv a b = cdiv (a - b) b + 1 := by
  by_cases hab : a ≤ b
  · have h1 : a - b = 0 := by omega
    rw [h1, cdiv_zero b hb, cdiv_pos a b ha hb,
      Nat.div_eq_of_lt (by omega)]
  · rw [cdiv_pos a b ha hb, cdiv_pos (a - b) b (by omega) hb]
    have h2 : a - 1 = (a - b - 1) + b := by omega
    rw [h2, Nat.add_div_right _ hb]

theorem fetchLoop_offsets_good (pagesFn : Nat → Option (List Feature))
    (total batch : Nat) (hb : 0 < batch)
    (hgood : ∀ o, o < total → ∃ pg, pagesFn o = some pg ∧ pg ≠ []) :
    ∀ fuel offset, total ≤ offset + fuel * batch →
      (fetchLoop pagesFn total batch offset fuel).offsets
        = List.range' offset (cdiv (total - offset) batch) batch := by
  intro fuel
  induction fuel with
  | zero =>
    intro offset hfe
    have h0 : total - offset = 0 := by omega
    rw [h0, cdiv_zero batch hb]
    rfl
  | succ fuel ih =>
    intro offset hfe
    by_cases h : offset < total
    · obtain ⟨pg, hpg, hne⟩ := hgood offset h
      have hlen : ¬pg.length = 0 := by
        simpa [List.length_eq_zero] using hne
      have hx : (fuel + 1) * batch = batch + fuel * batch := by ring
      have hrec := ih (offset + batch) (by omega)
      have hcd : cdiv (total - offset) batch
          = cdiv (total - (offset + batch)) batch + 1 := by
        rw [cdiv_step (total - offset) batch (by omega) hb]
        congr 2
        omega
      rw [fetchLoop, if_pos h]
      simp only [hpg, if_neg hlen]
      rw [hcd, List.range'_succ]
      exact congrArg (fun l => offset :: l) hrec
    · have h0 : total - offset = 0 := by omega
      rw [fetchLoop, if_neg h, h0, cdiv_zero batch hb]
      rfl

theorem fetchLoop_fail (pagesFn : Nat → Option (List Feature))
    (total batch : Nat) :
    ∀ (j fuel offset : Nat), j < fuel → offset + j * batch < total →
      (∀ i, i < j → ∃ pg, pagesFn (offset + i * batch) = some pg ∧ pg ≠ []) →
      pagesFn (offset + j * batch) = none →
      fetchLoop pagesFn total batch offset fuel
        = ⟨(List.range j).map (fun i => (pagesFn (offset + i * batch)).getD []),
           List.range' offset (j + 1) batch⟩ := by
  intro j
  induction j with
  | zero =>
    intro fuel offset hjf hjt _ hfail
    match fuel, hjf with
    | fuel + 1, _ =>
      have h : offset < total := by omega
      have hf : pagesFn offset = none := by simpa using hfail
      rw [fetchLoop, if_pos h, hf]
      rfl
  | succ j ih =>
    intro fuel offset hjf hjt hgood hfail
    match fuel, hjf with
    | fuel + 1, hjf =>
      have h : offset < total := by omega
      obtain ⟨pg, hpg, hne⟩ := by
        have := hgood 0 (by omega)
        simpa using this
      have hlen : ¬pg.length = 0 := by
        simpa [List.length_eq_zero] using hne
      have hrec := ih fuel (offset + batch) (by omega)
        (by
          have : offset + batch + j * batch = offset + (j + 1) * batch := by ring
          omega)
        (by
          intro i hi
          have h2 := hgood (i + 1) (by omega)
          have h3 : offset + (i + 1) * batch = offset + batch + i * batch := by ring
          rwa [h3] at h2)
        (by
          have h3 : offset + (j + 1) * batch = offset + batch + j * batch := by ring
          rwa [h3] at hfail)
      rw [fetchLoop, if_pos h]
      simp only [hpg, if_neg hlen]
      rw [hrec]
      simp only [FetchResult.mk.injEq]
      constructor
      · rw [List.range_succ_eq_map, List.map_cons, List.map_map]
        have hh : (pagesFn (offset + 0 * batch)).getD [] = pg := by
          simpa using congrArg (fun o => o.getD ([] : List Feature)) hpg
        rw [hh]
        congr 1
        apply List.map_congr_left
        intro i _
        simp only [Function.comp_apply, Nat.succ_eq_add_one]
        congr 2
        ring
      · simp [List.range'_succ]

end Lemmas

section Claims

/-- C1: Stage 1 of the Cleaner keeps a record iff its price is present
and at least the (positive) price floor; a record with an absent price
(defaulted to zero) or a price below the floor is dropped and never
appears in the cleaned output. -/
theorem claim1_stage1_price_floor (pfloor : ℚ) (minT : Nat) (fs : List Feature)
    (f : Feature) (hpos : 0 < pfloor) :
    (f ∈ stage1 pfloor fs ↔ f ∈ fs ∧ ∃ p, f.sr_cena_m2 = some p ∧ pfloor ≤ p) ∧
    (f ∈ clean_data pfloor minT fs → ∃ p, f.sr_cena_m2 = some p ∧ pfloor ≤ p) := by
  have hiff : pfloor ≤ priceD f ↔ ∃ p, f.sr_cena_m2 = some p ∧ pfloor ≤ p := by
    cases hp : f.sr_cena_m2 with
    | none =>
      simp only [priceD, hp, Option.getD_none]
      constructor
      · intro h
        exact absurd (lt_of_lt_of_le hpos h) (lt_irrefl 0)
      · rintro ⟨p, hpe, -⟩
        cases hpe
    | some p =>
      simp [priceD, hp]
  refine ⟨?_, ?_⟩
  · rw [mem_stage1, hiff]
  · intro hf
    have hs1 : f ∈ stage1 pfloor fs := (mem_stage2.mp hf).1
    exact hiff.mp (mem_stage1.mp hs1).2

/-- Witness for C1 at the script's own floor (5000) on the spec §8
records: the high-priced record is kept, as the theorem's right side
demands. -/
theorem claim1_stage1_price_floor_witness :
    (0 : ℚ) < MIN_PRICE_M2 ∧
    (exA ∈ stage1 MIN_PRICE_M2 [exA, exC] ↔
      exA ∈ [exA, exC] ∧ ∃ p, exA.sr_cena_m2 = some p ∧ MIN_PRICE_M2 ≤ p) := by
  have h := claim1_stage1_price_floor MIN_PRICE_M2 MIN_TRANSACTIONS_PER_YEAR
    [exA, exC] exA (by norm_num [MIN_PRICE_M2])
  exact ⟨by norm_num [MIN_PRICE_M2], h.1⟩

/-- C2: Stage 2 of the Cleaner groups its input by (unit name, year),
sums each group's per-record transaction-count field, and keeps every
record of a group iff that sum meets the threshold — all-or-nothing per
group; composed with Stage 1 this characterises the cleaned output. -/
theorem claim2_stage2_group_threshold (pfloor : ℚ) (minT : Nat)
    (fs : List Feature) (f : Feature) :
    (f ∈ stage2 minT fs ↔ f ∈ fs ∧ minT ≤ groupTrans fs (keyOf f)) ∧
    (f ∈ clean_data pfloor minT fs ↔
      f ∈ stage1 pfloor fs ∧
        minT ≤ groupTrans (stage1 pfloor fs) (keyOf f)) :=
  ⟨mem_stage2, mem_stage2⟩

/-- C9: the Cleaner's two diagnostic removal counters account exactly
for the loss: records removed at the price stage, plus records removed
at the group stage, plus records in the cleaned output, equal the
records in the input. -/
theorem claim9_removal_counts_conserve (pfloor : ℚ) (minT : Nat)
    (fs : List Feature) :
    removed_price pfloor fs + removed_low_count minT (stage1 pfloor fs)
      + (clean_data pfloor minT fs).length = fs.length := by
  set p : Feature → Bool := fun f => decide (pfloor ≤ priceD f) with hp
  set s : List Feature := stage1 pfloor fs with hs
  have hs1 : s.length = fs.countP p := by
    rw [hs, stage1, List.countP_eq_length_filter]
  have hrp : removed_price pfloor fs = fs.countP (fun f => !p f) := rfl
  have hlen : fs.length = fs.countP p + fs.countP (fun f => !p f) := by
    rw [List.length_eq_countP_add_countP p fs]
    congr 1
    apply List.countP_congr
    intro x _
    simp
  set q : UKey → Bool := fun k => decide (minT ≤ groupTrans s k) with hq
  have h2 : (clean_data pfloor minT fs).length
      = (((keysOf s).filter q).map (fun k => (groupFeatures s k).length)).sum := by
    simp [clean_data, stage2, List.length_flatMap, Function.comp_def, ← hs, ← hq]
  have h3 : removed_low_count minT s
      = (((keysOf s).filter (fun k => !q k)).map
          (fun k => (groupFeatures s k).length)).sum := rfl
  have h4 := sum_map_filter_split (fun k => (groupFeatures s k).length) q (keysOf s)
  have h5 := sum_group_lengths s
  omega

/-- C7: cleaning is idempotent — running `clean_data` on its own output,
with the same thresholds, returns that output unchanged (as the very
same list, order included). -/
theorem claim7_clean_idempotent (pfloor : ℚ) (minT : Nat) (fs : List Feature) :
    clean_data pfloor minT (clean_data pfloor minT fs)
      = clean_data pfloor minT fs := by
  set s : List Feature := stage1 pfloor fs with hs
  set kept : List UKey :=
    (keysOf s).filter (fun k => decide (minT ≤ groupTrans s k)) with hkept
  set out : List Feature := kept.flatMap (groupFeatures s) with hout2
  have hout : clean_data pfloor minT fs = out := rfl
  have hnd : kept.Nodup := List.Nodup.filter _ (nodup_keysOf s)
  have hne : ∀ k ∈ kept, groupFeatures s k ≠ [] := by
    intro k hk
    have hk2 : k ∈ keysOf s := List.mem_of_mem_filter hk
    rcases mem_keysOf.mp hk2 with ⟨f, hf, hkey⟩
    exact List.ne_nil_of_mem (mem_groupFeatures.mpr ⟨hf, hkey⟩)
  have hA : stage1 pfloor out = out := by
    simp only [stage1]
    apply List.filter_eq_self.mpr
    intro f hf
    rcases List.mem_flatMap.mp hf with ⟨k, hk, hfk⟩
    have hmem : f ∈ s := (mem_groupFeatures.mp hfk).1
    rw [hs] at hmem
    simp only [decide_eq_true_eq]
    exact (mem_stage1.mp hmem).2
  have hkeys : keysOf out = kept := keysOf_flatMap_groups s kept hnd hne
  have hgrp : ∀ k ∈ kept, groupFeatures out k = groupFeatures s k :=
    fun k hk => groupFeatures_flatMap s kept hnd k hk
  have htrans : ∀ k ∈ kept, groupTrans out k = groupTrans s k := by
    intro k hk
    rw [groupTrans, groupTrans, hgrp k hk]
  have hB : stage2 minT out = out := by
    rw [stage2, hkeys]
    have hfilter : kept.filter (fun k => decide (minT ≤ groupTrans out k)) = kept := by
      apply List.filter_eq_self.mpr
      intro k hk
      rw [htrans k hk]
      rw [hkept] at hk
      exact (List.mem_filter.mp hk).2
    rw [hfilter, hout2]
    exact List.flatMap_congr (fun k hk => hgrp k hk)
  calc clean_data pfloor minT (clean_data pfloor minT fs)
      = stage2 minT (stage1 pfloor out) := by rw [hout]; rfl
    _ = stage2 minT out := by rw [hA]
    _ = out := hB
    _ = clean_data pfloor minT fs := hout.symm

/-- C3: every aggregated group's price list holds exactly the
per-record prices of its records that are present and non-zero (one
entry per record, regardless of the record's transaction count), and
the rendered average price is the unweighted arithmetic mean of that
list, zero when it is empty. -/
theorem claim3_avg_price_unweighted_mean (m : String) (fs : List Feature)
    (k : UKey) (u : UnitAgg)
    (h : lookupKey k (aggregate_for_map m fs) = some u) :
    u.ceny_m2 = collectedPrices fs k ∧
    avg_price u = specMean (collectedPrices fs k) := by
  rcases agg_lookup_some h with ⟨-, hc, -⟩
  refine ⟨hc, ?_⟩
  have hms : avg_price u = specMean u.ceny_m2 := rfl
  rw [hms, hc]

/-- Witness for C3 on the spec §8 example group: the collected prices
are 8000 and 12000 and the average is their plain mean. -/
theorem claim3_avg_price_unweighted_mean_witness :
    wUnitA.ceny_m2 = collectedPrices [exA, exB] ("A", 2024) ∧
    avg_price wUnitA = specMean (collectedPrices [exA, exB] ("A", 2024)) :=
  claim3_avg_price_unweighted_mean "pierwotny" [exA, exB] ("A", 2024) wUnitA
    (by rfl)

/-- C8: aggregation is order-insensitive — permuting the input yields
the same set of (unit, year) keys, identical per-group transaction-count
sums, and per-group price lists equal as multisets. -/
theorem claim8_aggregate_perm_invariant (m : String) (fs fs' : List Feature)
    (hp : fs.Perm fs') :
    (∀ k, (lookupKey k (aggregate_for_map m fs)).isSome
        ↔ (lookupKey k (aggregate_for_map m fs')).isSome) ∧
    (∀ k u u', lookupKey k (aggregate_for_map m fs) = some u →
        lookupKey k (aggregate_for_map m fs') = some u' →
        u.transakcje = u'.transakcje ∧ u.ceny_m2.Perm u'.ceny_m2) := by
  constructor
  · intro k
    rw [agg_lookup_isSome, agg_lookup_isSome]
    constructor
    · rintro ⟨f, hf, hkey⟩
      exact ⟨f, hp.mem_iff.mp hf, hkey⟩
    · rintro ⟨f, hf, hkey⟩
      exact ⟨f, hp.mem_iff.mpr hf, hkey⟩
  · intro k u u' hu hu'
    rcases agg_lookup_some hu with ⟨ht, hc, -⟩
    rcases agg_lookup_some hu' with ⟨ht', hc', -⟩
    have hgperm : (groupFeatures fs k).Perm (groupFeatures fs' k) :=
      hp.filter _
    constructor
    · rw [ht, ht', groupTrans, groupTrans]
      exact List.Perm.sum_eq (hgperm.map countD)
    · rw [hc, hc', collectedPrices, collectedPrices]
      exact hgperm.filterMap priceTruthy

/-- Witness for C8: swapping the two §8 example records leaves the
group's transaction sum unchanged and permutes its price list. -/
theorem claim8_aggregate_perm_invariant_witness :
    wUnitA.transakcje = wUnitArev.transakcje ∧
    wUnitA.ceny_m2.Perm wUnitArev.ceny_m2 :=
  (claim8_aggregate_perm_invariant "pierwotny" [exA, exB] [exB, exA]
    (List.Perm.swap exB exA [])).2 ("A", 2024) wUnitA wUnitArev (by rfl) (by rfl)

/-- C10: the renderer emits, for each market, exactly the groups whose
retained geometry is truthy — groups with an absent geometry are
silently dropped — so every feature in the embedded payload has a
non-null geometry. -/
theorem claim10_rendered_geometry_nonnull (p w : List (UKey × UnitAgg)) :
    create_map_features p w
      = (p.filter (fun kv => kv.2.geometry.isSome)).map
          (fun kv => emitUnit "pierwotny" kv.2)
        ++ (w.filter (fun kv => kv.2.geometry.isSome)).map
          (fun kv => emitUnit "wtorny" kv.2)
    ∧ ∀ g ∈ create_map_features p w, g.geometry ≠ none := by
  constructor
  · rw [create_map_features, renderMarket, renderMarket,
      filterMap_if_eq, filterMap_if_eq]
  · intro g hg
    rcases List.mem_append.mp hg with hg1 | hg1
    · exact renderMarket_geometry hg1
    · exact renderMarket_geometry hg1

/-- Witness for C10: with one group carrying a geometry and one whose
geometry is null, the emitted feature for the former has a non-null
geometry (and the latter is dropped, per the theorem's first part). -/
theorem claim10_rendered_geometry_nonnull_witness :
    (emitUnit "pierwotny" wUnitA).geometry ≠ none := by
  have h := claim10_rendered_geometry_nonnull
    [((("A", 2024) : UKey), wUnitA)] [((("B", 2024) : UKey), wUnitNoGeom)]
  refine h.2 (emitUnit "pierwotny" wUnitA) ?_
  show emitUnit "pierwotny" wUnitA ∈ [emitUnit "pierwotny" wUnitA]
  exact List.mem_singleton_self _

/-- C4 (counterexample to the claim as stated): when the count-only
query reports zero, the fetcher does not return an empty collection —
it returns `None`. -/
theorem claim4_counterexample :
    (download_market_data (fun _ => some pageOne) 0).1 ≠ some [] := by
  intro h
  have h2 : (download_market_data (fun _ => some pageOne) 0).1 = none := rfl
  rw [h2] at h
  cases h

/-- C4 (amended): when the count-only query reports zero matching
records, the fetcher immediately returns `None` — the no-data sentinel
its caller tests for — and issues no page requests. -/
theorem claim4_zero_count_no_requests (pagesFn : Nat → Option (List Feature)) :
    download_market_data pagesFn 0 = (none, []) := rfl

/-- C5: with a positive batch size, the pagination loop requests
offsets 0, batch, 2·batch, …: when every page below the total is
non-empty it issues exactly ⌈total/batch⌉ requests; it stops right
after a page comes back empty; and it requests nothing once the offset
has reached the total. -/
theorem claim5_sequential_offsets (pagesFn : Nat → Option (List Feature))
    (total batch : Nat) (hb : 0 < batch) :
    ((∀ o, o < total → ∃ pg, pagesFn o = some pg ∧ pg ≠ []) →
      (fetchLoop pagesFn total batch 0 total).offsets
        = List.range' 0 (cdiv total batch) batch)
    ∧ (∀ offset fuel, offset < total → pagesFn offset = some [] →
        (fetchLoop pagesFn total batch offset (fuel + 1)).offsets = [offset])
    ∧ (∀ offset fuel, total ≤ offset →
        (fetchLoop pagesFn total batch offset fuel).offsets = []) := by
  refine ⟨?_, ?_, ?_⟩
  · intro hgood
    have h := fetchLoop_offsets_good pagesFn total batch hb hgood total 0
      (by have : total ≤ total * batch := Nat.le_mul_of_pos_right total hb
          omega)
    simpa using h
  · intro offset fuel h hpg
    rw [fetchLoop, if_pos h]
    simp [hpg]
  · intro offset fuel h
    cases fuel with
    | zero => rfl
    | succ fuel => rw [fetchLoop, if_neg (by omega)]

/-- Witness for C5 at the spec §8 numbers: total 5000, batch 2000, all
pages non-empty ⇒ exactly three requests, at offsets 0, 2000 and 4000. -/
theorem claim5_sequential_offsets_witness :
    (fetchLoop (fun _ => some pageOne) 5000 2000 0 5000).offsets
      = [0, 2000, 4000] := by
  have h := (claim5_sequential_offsets (fun _ => some pageOne) 5000 2000
    (by omega)).1 (fun o _ => ⟨pageOne, rfl, by simp [pageOne]⟩)
  rw [h]
  rfl

/-- C6: if the page request at offset j·2000 fails with a transport
error after j successful non-empty pages, the fetcher stops paginating
and still returns the concatenation, in page order, of the pages
fetched before the failure — no retry, no deduplication — having issued
exactly the requests at offsets 0, 2000, …, j·2000. -/
theorem claim6_partial_results_on_failure
    (pagesFn : Nat → Option (List Feature)) (total j : Nat)
    (hjt : j * 2000 < total)
    (hgood : ∀ i, i < j → ∃ pg, pagesFn (i * 2000) = some pg ∧ pg ≠ [])
    (hfail : pagesFn (j * 2000) = none) :
    download_market_data pagesFn total
      = (some (((List.range j).map
            (fun i => (pagesFn (i * 2000)).getD [])).flatten),
         List.range' 0 (j + 1) 2000) := by
  have htot : total ≠ 0 := by omega
  have hjf : j < total := by
    have : j ≤ j * 2000 := Nat.le_mul_of_pos_right j (by omega)
    omega
  have h := fetchLoop_fail pagesFn total 2000 j total 0 hjf
    (by simpa using hjt)
    (by intro i hi; simpa using hgood i hi)
    (by simpa using hfail)
  rw [download_market_data, if_neg htot]
  rw [h]
  simp [merge_geojson]

/-- Witness for C6: the page at offset 2000 fails; the caller still
gets the one page fetched at offset 0, and exactly the two requests at
offsets 0 and 2000 were issued. -/
theorem claim6_partial_results_on_failure_witness :
    download_market_data (fun o => if o = 2000 then none else some pageOne) 5000
      = (some pageOne, [0, 2000]) := by
  have h := claim6_partial_results_on_failure
    (fun o => if o = 2000 then none else some pageOne) 5000 1
    (by omega)
    (by
      intro i hi
      have hi0 : i = 0 := by omega
      subst hi0
      exact ⟨pageOne, rfl, by simp [pageOne]⟩)
    (by rfl)
  rw [h]
  rfl

end Claims

end MsipPipeline
